import Mathlib

/-!
Shallow embedding of the deploy-queue engine (src/app.ts): the Redis-backed
ordered membership queue (sorted-set primitives with scores assigned from
Date.now), the prune/join/leave/list/pop operations, the head-change
notification wrapper, the view reconciliation logic (edit in place, repost
when buried, create new), and the overflow-menu delete handler.

Redis sorted sets iterate in ascending score order, with ties broken by
lexicographic member order; a sorted set is modelled as the list of its
entries in that iteration order.  Times and scores are integers
(millisecond timestamps); member ids are strings.
-/

/-- A queue member id (an opaque Slack user id string). -/
abbrev Member := String

/-- One sorted-set entry: a member together with its admission score (the
Date.now millisecond value that was passed to ZADD). -/
structure Entry where
  member : Member
  score : Int
deriving DecidableEq

/-- A Redis sorted set, as the list of its entries in Redis iteration order:
ascending score, ties broken by lexicographic member order. -/
abbrev ZSet := List Entry

/-- Lexicographic comparison of character lists by code point (how Redis
compares the bytes of same-score members). -/
def charListLt : List Char → List Char → Bool
  | [], [] => false
  | [], _ :: _ => true
  | _ :: _, [] => false
  | a :: as, b :: bs =>
    if a.toNat < b.toNat then true
    else if b.toNat < a.toNat then false
    else charListLt as bs

/-- Lexicographic order on member ids. -/
def memberLt (a b : Member) : Bool := charListLt a.data b.data

/-- Redis sorted-set iteration order: by score, then lexicographically by
member for equal scores. -/
def entryLt (a b : Entry) : Bool :=
  decide (a.score < b.score) ||
    (decide (a.score = b.score) && memberLt a.member b.member)

/-- Ordered insertion keeping Redis iteration order. -/
def zinsert (e : Entry) : ZSet → ZSet
  | [] => [e]
  | x :: xs => if entryLt e x then e :: x :: xs else x :: zinsert e xs

/-- ZADD key NX score member: insert only when the member is absent; returns
the new set and the number of elements added (0 or 1). -/
def zaddNX (q : ZSet) (score : Int) (m : Member) : ZSet × Nat :=
  if q.any (fun e => e.member == m) then (q, 0) else (zinsert ⟨m, score⟩ q, 1)

/-- ZREM key member: remove the member when present; returns the new set and
the number of elements removed (0 or 1). -/
def zrem (q : ZSet) (m : Member) : ZSet × Nat :=
  if q.any (fun e => e.member == m) then
    (q.filter (fun e => !(e.member == m)), 1)
  else (q, 0)

/-- ZRANGE key 0 -1: all members in iteration order. -/
def zrangeAll (q : ZSet) : List Member := q.map (fun e => e.member)

/-- ZRANGE key 0 0: the head member, when any. -/
def zrangeHead (q : ZSet) : Option Member := (q.map (fun e => e.member)).head?

/-- ZREMRANGEBYSCORE key lo hi: drop every entry whose score lies in
[lo, hi]. -/
def zremrangebyscore (q : ZSet) (lo hi : Int) : ZSet :=
  q.filter (fun e => !(decide (lo ≤ e.score) && decide (e.score ≤ hi)))

/-- The engine configuration relevant to the queue store: QUEUE_MAX_AGE_MS,
where none means pruning is disabled (null in the source). -/
structure Config where
  maxAgeMs : Option Int
deriving DecidableEq

/-- Default QUEUE_MAX_AGE_HOURS (12). -/
def QUEUE_MAX_AGE_HOURS_DEFAULT : Int := 12

/-- How QUEUE_MAX_AGE_MS is computed from the (numerically parsed)
QUEUE_MAX_AGE_HOURS environment value: absent keeps the default of 12 hours;
a finite parsed value yields hours-to-ms when positive and null (pruning
disabled) otherwise. -/
def computeQueueMaxAgeMs (raw : Option Int) : Option Int :=
  match raw with
  | none => some (QUEUE_MAX_AGE_HOURS_DEFAULT * 60 * 60 * 1000)
  | some parsed =>
    if 0 < parsed then some (parsed * 60 * 60 * 1000) else none

/-- Default QUEUE_REPOST_THRESHOLD (5). -/
def QUEUE_REPOST_THRESHOLD_DEFAULT : Int := 5

/-- How QUEUE_REPOST_THRESHOLD is computed from the parsed environment value:
absent keeps the default; a negative value disables reposting (null in the
source); otherwise the floor of the value is used (identity on integers). -/
def computeQueueRepostThreshold (raw : Option Int) : Option Int :=
  match raw with
  | none => some QUEUE_REPOST_THRESHOLD_DEFAULT
  | some parsed => if parsed < 0 then none else some parsed

/-- pruneStaleQueueEntries: when pruning is enabled, remove every entry with
score in [0, now - maxAge]; a non-positive cutoff performs no removal. -/
def pruneStaleQueueEntries (cfg : Config) (now : Int) (q : ZSet) : ZSet :=
  match cfg.maxAgeMs with
  | none => q
  | some maxAge =>
    let cutoff := now - maxAge
    if cutoff ≤ 0 then q else zremrangebyscore q 0 cutoff

/-- joinQueue: prune, then ZADD NX with score Date.now; returns true when the
member was actually added. -/
def joinQueue (cfg : Config) (now : Int) (q : ZSet) (userId : Member) :
    ZSet × Bool :=
  let q1 := pruneStaleQueueEntries cfg now q
  let r := zaddNX q1 now userId
  (r.1, r.2 == 1)

/-- leaveQueue: prune, then ZREM; returns true when the member was removed. -/
def leaveQueue (cfg : Config) (now : Int) (q : ZSet) (userId : Member) :
    ZSet × Bool :=
  let q1 := pruneStaleQueueEntries cfg now q
  let r := zrem q1 userId
  (r.1, r.2 == 1)

/-- listQueue: prune, then ZRANGE 0 -1. -/
def listQueue (cfg : Config) (now : Int) (q : ZSet) : ZSet × List Member :=
  let q1 := pruneStaleQueueEntries cfg now q
  (q1, zrangeAll q1)

/-- The body of popNext's retry loop, fuel-indexed: each iteration reads the
head (ZRANGE 0 0), returns null when the queue is observed empty, otherwise
attempts ZREM of the read member and returns it on success, retrying
otherwise.  The source loop is unguarded (while true); the fuel only bounds
how many iterations are examined, and none signals fuel exhaustion with the
loop still running. -/
def popNextLoop : Nat → ZSet → ZSet × Option Member
  | 0, q => (q, none)
  | Nat.succ n, q =>
    match zrangeHead q with
    | none => (q, none)
    | some first =>
      let r := zrem q first
      if r.2 == 1 then (r.1, some first) else popNextLoop n r.1

/-- popNext: prune, then run the read-head-then-conditionally-remove loop.
Without concurrent interference the loop decides on its first iteration, so
any positive fuel computes the sequential result. -/
def popNext (cfg : Config) (now : Int) (q : ZSet) : ZSet × Option Member :=
  let q1 := pruneStaleQueueEntries cfg now q
  popNextLoop (q1.length + 1) q1

/-- One iteration of popNext's loop body (the sequential, interference-free
case). -/
def popNextOnce (q : ZSet) : ZSet × Option Member :=
  match zrangeHead q with
  | none => (q, none)
  | some first =>
    let r := zrem q first
    if r.2 == 1 then (r.1, some first) else (r.1, none)

/-- firstUser: prune, then ZRANGE 0 0. -/
def firstUser (cfg : Config) (now : Int) (q : ZSet) : ZSet × Option Member :=
  let q1 := pruneStaleQueueEntries cfg now q
  (q1, zrangeHead q1)

/-- withFirstChangeNotify: snapshot the head before the mutation, run it,
snapshot the head after; when the new head exists, differs from the old one,
and the suppress-when-before-null option does not apply, the now-first member
is notified.  The second component is the member the notification was
dispatched to (none when no notification was sent); at most one notification
is dispatched per invocation. -/
def withFirstChangeNotify (cfg : Config) (now1 now2 : Int)
    (suppressWhenBeforeNull : Bool) (op : ZSet → ZSet) (q : ZSet) :
    ZSet × Option Member :=
  let f1 := firstUser cfg now1 q
  let before := f1.2
  let q2 := op f1.1
  let f2 := firstUser cfg now2 q2
  let after := f2.2
  match after with
  | none => (f2.1, none)
  | some a =>
    if before = some a then (f2.1, none)
    else if suppressWhenBeforeNull = true ∧ before = none then (f2.1, none)
    else (f2.1, some a)

/-- Well-formedness of a modelled sorted set: entries strictly ordered by the
Redis iteration order and member ids pairwise distinct. -/
def zWF (q : ZSet) : Prop :=
  List.Pairwise (fun a b => entryLt a b = true) q ∧ (zrangeAll q).Nodup

instance (q : ZSet) : Decidable (zWF q) := by
  unfold zWF
  infer_instance

/-! Concurrency model for popNext.  The engine is single-threaded and
event-driven: tasks interleave at store calls, and each store primitive
(ZRANGE, ZREM, ZADD) is individually atomic.  A popNext task inside its
retry loop is therefore a small state machine whose atomic steps are the
individual store calls of the loop body. -/

/-- The control state of one popNext task inside its retry loop: about to
read the head, about to conditionally remove a previously read head, or
finished with its result. -/
inductive TStat where
  | reading : TStat
  | removing : Member → TStat
  | done : Option Member → TStat
deriving DecidableEq

/-- Two concurrent popNext tasks over one shared queue. -/
structure RaceState where
  q : ZSet
  t1 : TStat
  t2 : TStat
deriving DecidableEq

/-- One atomic step of a popNext task: reading performs ZRANGE 0 0 (finishing
with null when the queue is observed empty), removing performs the
conditional ZREM (finishing with the member on success, retrying from the
read otherwise). -/
def stepThread (q : ZSet) : TStat → ZSet × TStat
  | .reading =>
    match zrangeHead q with
    | none => (q, .done none)
    | some m => (q, .removing m)
  | .removing m =>
    let r := zrem q m
    if r.2 == 1 then (r.1, .done (some m)) else (r.1, .reading)
  | .done r => (q, .done r)

/-- Scheduler step: true steps the first task, false the second. -/
def stepSys (s : RaceState) (c : Bool) : RaceState :=
  if c then
    let r := stepThread s.q s.t1
    ⟨r.1, r.2, s.t2⟩
  else
    let r := stepThread s.q s.t2
    ⟨r.1, s.t1, r.2⟩

/-- Run the two racing popNext tasks under an arbitrary interleaving. -/
def runSched (s : RaceState) : List Bool → RaceState
  | [] => s
  | c :: cs => runSched (stepSys s c) cs

/-! Interference model for the popNext retry loop when other queue
operations (concurrent leave and join handlers) run between the loop's read
and its conditional remove. -/

/-- An interfering store mutation issued by a concurrent handler. -/
inductive QOp where
  | join : Member → Int → QOp
  | leave : Member → QOp
deriving DecidableEq

/-- Apply one interfering mutation. -/
def applyOp (q : ZSet) : QOp → ZSet
  | .join u t => (zaddNX q t u).1
  | .leave u => (zrem q u).1

/-- Apply a batch of interfering mutations in order. -/
def applyOps (q : ZSet) (ops : List QOp) : ZSet := ops.foldl applyOp q

/-- The popNext retry loop run against an interference schedule: iteration i
reads the head, then the mutations of the i-th batch execute, then the
conditional ZREM runs.  The result is none when the loop is still retrying
after the given number of iterations (the source loop itself is unguarded),
and some (final queue, popped member or null) when it returned within
them. -/
def popNextRace : Nat → List (List QOp) → ZSet → Option (ZSet × Option Member)
  | 0, _, _ => none
  | Nat.succ n, sched, q =>
    match zrangeHead q with
    | none => some (q, none)
    | some first =>
      let q1 := applyOps q (match sched with | [] => [] | ops :: _ => ops)
      let r := zrem q1 first
      if r.2 == 1 then some (r.1, some first)
      else popNextRace n (sched.drop 1) r.1

/-- An adversarial interference schedule that alternates between the two
members a and b: each batch removes the member the loop just read and admits
the other one. -/
def altSched (a b : Member) : Nat → List (List QOp)
  | 0 => []
  | Nat.succ n => [QOp.leave a, QOp.join b 0] :: altSched b a n

/-! The overflow-menu delete handler (action id queue_more, value delete):
deletes the tracked queue message via the chat client and, when that
succeeds, forgets the recorded last-message handle.  It never touches the
membership sorted set. -/

/-- The per-channel state the delete handler can reach: the membership
sorted set and the recorded last-message handle (the ViewRecord). -/
structure MoreState where
  q : ZSet
  record : Option String
deriving DecidableEq

/-- Outcome of the chat.delete call as observed by the handler. -/
inductive ChatDeleteRes where
  | ok : ChatDeleteRes
  | err : ChatDeleteRes
deriving DecidableEq

/-- The queue_more action handler: on the delete option with a known channel
and message ts, delete the message; on success forget the recorded handle
(when the team id is known) and respond with a confirmation, on failure
respond with an apology.  The second component is the ephemeral response
text, when any. -/
def queueMoreDelete (st : MoreState) (selected : Option String)
    (channelId teamId ts : Option String) (del : ChatDeleteRes) :
    MoreState × Option String :=
  if selected ≠ some "delete" then (st, none)
  else
    match channelId, ts with
    | some _, some _ =>
      match del with
      | .ok =>
        ({ st with record := if teamId.isSome then none else st.record },
          some "Queue message deleted.")
      | .err => (st, some "Sorry, I could not delete that message.")
    | _, _ => (st, none)

/-! View reconciliation (postOrUpdateQueueView and its buriedness check).
The chat client is modelled as an oracle recording how each external call
would respond. -/

/-- A channel message as seen in a conversations.history response. -/
structure Msg where
  type : String
  subtype : Option String
deriving DecidableEq

/-- Response to the conversations.history call: an error (thrown, or ok not
true) or the list of returned messages. -/
inductive HistoryRes where
  | err : HistoryRes
  | ok : List Msg → HistoryRes
deriving DecidableEq

/-- Outcome of a chat.delete call: success, or a thrown platform error with
the given error code. -/
inductive DeleteRes where
  | ok : DeleteRes
  | errCode : String → DeleteRes
deriving DecidableEq

/-- Outcome of a chat.update call: success, or a thrown platform error with
the given error code. -/
inductive UpdateRes where
  | ok : UpdateRes
  | errCode : String → UpdateRes
deriving DecidableEq

/-- The chat client oracle: responses to history, delete and update keyed by
the target ts, and the ts a fresh chat.postMessage would return (none models
a response without one). -/
structure ChatClient where
  history : String → Int → HistoryRes
  deleteMsg : String → DeleteRes
  updateMsg : String → UpdateRes
  postTs : Option String

/-- queueMessageNeedsRepost: fetch the channel history strictly after the
tracked ts with limit clamped to [1, 100] around threshold + 1, count the
visible messages (type message and subtype not tombstone), and report
buried when more than threshold are visible; every failure path reports
false. -/
def queueMessageNeedsRepost (client : ChatClient) (ts : String)
    (threshold : Int) : Bool :=
  match client.history ts (max 1 (min 100 (threshold + 1))) with
  | .err => false
  | .ok msgs =>
    let visible := msgs.filter
      (fun m => m.type == "message" && !(m.subtype == some "tombstone"))
    decide (threshold < (visible.length : Int))

/-- The outcome of one postOrUpdateQueueView call: the pruned queue, the
recorded last-message handle afterwards, the ts of the returned view, and
whether the old view was deleted for a repost and whether a fresh message
was posted. -/
structure ViewResult where
  queue : ZSet
  record : Option String
  ts : Option String
  deletedOld : Bool
  postedNew : Bool
deriving DecidableEq

/-- Fall back to chat.postMessage: record the fresh ts when the response has
one, otherwise forget the record. -/
def viewDoPost (q1 : ZSet) (client : ChatClient) (deleted : Bool) :
    ViewResult :=
  match client.postTs with
  | some nts => ⟨q1, some nts, some nts, deleted, true⟩
  | none => ⟨q1, none, none, deleted, true⟩

/-- Second update attempt, against the cached handle: runs only when no
repost happened, a cached handle exists, and it differs from the explicitly
passed ts (or no ts was passed); on success the cached handle is recorded
and returned, on any thrown update error the fresh-post fallback runs. -/
def viewTryCached (q1 : ZSet) (client : ChatClient) (deleted forceNew : Bool)
    (cachedTs ts0 : Option String) : ViewResult :=
  if forceNew then viewDoPost q1 client deleted
  else
    match cachedTs with
    | none => viewDoPost q1 client deleted
    | some c =>
      if ts0 = none ∨ ts0 ≠ some c then
        match client.updateMsg c with
        | .ok => ⟨q1, some c, some c, deleted, false⟩
        | .errCode _ => viewDoPost q1 client deleted
      else viewDoPost q1 client deleted

/-- The effective view handle: the explicitly passed ts when present,
otherwise the cached record (ts ?? cachedTs). -/
def viewEffectiveTs (ts0 record : Option String) : Option String :=
  match ts0 with
  | some t => some t
  | none => record

/-- Whether the repost branch runs: an effective handle exists, the
threshold is configured (not null) and non-negative, and the buriedness
check reports true. -/
def viewNeedsRepost (client : ChatClient) (repostThreshold : Option Int)
    (effectiveTs : Option String) : Bool :=
  match effectiveTs, repostThreshold with
  | some ets, some t => decide (0 ≤ t) && queueMessageNeedsRepost client ets t
  | _, _ => false

/-- Whether the buried view was deleted: chat.delete succeeded, or failed
with message_not_found (already gone counts as deleted); cant_delete and
other errors leave the old view in place. -/
def viewDeleted (client : ChatClient) (needsRepost : Bool)
    (effectiveTs : Option String) : Bool :=
  if needsRepost then
    match effectiveTs with
    | some ets =>
      match client.deleteMsg ets with
      | .ok => true
      | .errCode c => c == "message_not_found"
    | none => false
  else false

/-- First update attempt, against the explicitly clicked ts: skipped when a
repost forced a new message or no ts was passed; on success that ts is
recorded and returned, on any thrown update error the cached-handle attempt
runs. -/
def viewTryClicked (q1 : ZSet) (client : ChatClient)
    (deleted forceNew : Bool) (cachedTs ts0 : Option String) : ViewResult :=
  if forceNew then viewTryCached q1 client deleted forceNew cachedTs ts0
  else
    match ts0 with
    | some t =>
      match client.updateMsg t with
      | .ok => ⟨q1, some t, some t, deleted, false⟩
      | .errCode _ => viewTryCached q1 client deleted forceNew cachedTs ts0
    | none => viewTryCached q1 client deleted forceNew cachedTs ts0

/-- postOrUpdateQueueView: list the queue (pruning), decide whether the
effective handle (explicit ts, else cached record) is buried and must be
reposted, delete it when so (treating message_not_found as deleted), then
try updating the explicit ts in place, then the cached handle, and finally
fall back to posting a fresh message, recording whichever handle ended up
live. -/
def postOrUpdateQueueView (cfg : Config) (repostThreshold : Option Int)
    (client : ChatClient) (now : Int) (q : ZSet) (record : Option String)
    (ts0 : Option String) : ViewResult :=
  let q1 := pruneStaleQueueEntries cfg now q
  let effectiveTs := viewEffectiveTs ts0 record
  let needsRepost := viewNeedsRepost client repostThreshold effectiveTs
  let deleted := viewDeleted client needsRepost effectiveTs
  let cachedTs := if deleted then none else record
  viewTryClicked q1 client deleted deleted cachedTs ts0

/-! Order lemmas for the Redis iteration order. -/

theorem charListLt_trans (as : List Char) : ∀ bs cs : List Char,
    charListLt as bs = true → charListLt bs cs = true →
    charListLt as cs = true := by
  induction as with
  | nil =>
    intro bs cs h1 h2
    cases bs <;> cases cs <;> simp_all [charListLt]
  | cons a as ih =>
    intro bs cs h1 h2
    match bs, cs with
    | [], _ => simp [charListLt] at h1
    | _ :: _, [] => simp [charListLt] at h2
    | b :: bs, c :: cs =>
      simp only [charListLt] at h1 h2 ⊢
      rcases Nat.lt_trichotomy a.toNat b.toNat with hab | hab | hab
      · rcases Nat.lt_trichotomy b.toNat c.toNat with hbc | hbc | hbc
        · rw [if_pos (by omega : a.toNat < c.toNat)]
        · rw [if_pos (by omega : a.toNat < c.toNat)]
        · rw [if_neg (by omega), if_pos hbc] at h2
          simp at h2
      · rcases Nat.lt_trichotomy b.toNat c.toNat with hbc | hbc | hbc
        · rw [if_pos (by omega : a.toNat < c.toNat)]
        · rw [if_neg (by omega), if_neg (by omega)] at h1
          rw [if_neg (by omega), if_neg (by omega)] at h2
          rw [if_neg (by omega), if_neg (by omega)]
          exact ih bs cs h1 h2
        · rw [if_neg (by omega), if_pos hbc] at h2
          simp at h2
      · rw [if_neg (by omega), if_pos hab] at h1
        simp at h1

theorem charListLt_total (as : List Char) : ∀ bs : List Char, as ≠ bs →
    charListLt as bs = true ∨ charListLt bs as = true := by
  induction as with
  | nil =>
    intro bs hne
    cases bs with
    | nil => exact absurd rfl hne
    | cons b bs => exact Or.inl rfl
  | cons a as ih =>
    intro bs hne
    cases bs with
    | nil => exact Or.inr rfl
    | cons b bs =>
      rcases Nat.lt_trichotomy a.toNat b.toNat with h | h | h
      · left
        simp only [charListLt]
        rw [if_pos h]
      · have hab : a = b :=
          Char.eq_of_val_eq (UInt32.eq_of_val_eq (Fin.eq_of_val_eq h))
        have hne' : as ≠ bs := by
          intro hc
          exact hne (by rw [hab, hc])
        rcases ih bs hne' with h1 | h1
        · left
          simp only [charListLt]
          rw [if_neg (by omega), if_neg (by omega)]
          exact h1
        · right
          simp only [charListLt]
          rw [if_neg (by omega), if_neg (by omega)]
          exact h1
      · right
        simp only [charListLt]
        rw [if_pos h]

theorem memberLt_trans (a b c : Member) (h1 : memberLt a b = true)
    (h2 : memberLt b c = true) : memberLt a c = true :=
  charListLt_trans a.data b.data c.data h1 h2

theorem memberLt_total (a b : Member) (h : a ≠ b) :
    memberLt a b = true ∨ memberLt b a = true := by
  apply charListLt_total
  intro hc
  apply h
  cases a
  cases b
  simp_all

theorem entryLt_score_le {a b : Entry} (h : entryLt a b = true) :
    a.score ≤ b.score := by
  simp only [entryLt, Bool.or_eq_true, Bool.and_eq_true, decide_eq_true_eq]
    at h
  rcases h with h | ⟨h, _⟩
  · exact le_of_lt h
  · exact le_of_eq h

theorem entryLt_trans {a b c : Entry} (h1 : entryLt a b = true)
    (h2 : entryLt b c = true) : entryLt a c = true := by
  simp only [entryLt, Bool.or_eq_true, Bool.and_eq_true, decide_eq_true_eq]
    at h1 h2 ⊢
  rcases h1 with h1 | ⟨h1e, h1m⟩ <;> rcases h2 with h2 | ⟨h2e, h2m⟩
  · exact Or.inl (by omega)
  · exact Or.inl (by omega)
  · exact Or.inl (by omega)
  · exact Or.inr ⟨by omega, memberLt_trans _ _ _ h1m h2m⟩

theorem entryLt_total {a b : Entry} (h : a.member ≠ b.member) :
    entryLt a b = true ∨ entryLt b a = true := by
  simp only [entryLt, Bool.or_eq_true, Bool.and_eq_true, decide_eq_true_eq]
  rcases lt_trichotomy a.score b.score with hs | hs | hs
  · exact Or.inl (Or.inl hs)
  · rcases memberLt_total _ _ h with hm | hm
    · exact Or.inl (Or.inr ⟨hs, hm⟩)
    · exact Or.inr (Or.inr ⟨hs.symm, hm⟩)
  · exact Or.inr (Or.inl hs)

/-! Membership and ordering lemmas for the sorted-set primitives. -/

theorem mem_zinsert (e x : Entry) (q : ZSet) :
    e ∈ zinsert x q ↔ e = x ∨ e ∈ q := by
  induction q with
  | nil => simp [zinsert]
  | cons y ys ih =>
    simp only [zinsert]
    split
    · simp [List.mem_cons]
    · simp only [List.mem_cons, ih]
      tauto

theorem zrangeAll_zinsert_perm (x : Entry) (q : ZSet) :
    List.Perm (zrangeAll (zinsert x q)) (x.member :: zrangeAll q) := by
  induction q with
  | nil => exact List.Perm.refl _
  | cons y ys ih =>
    simp only [zinsert]
    split
    · exact List.Perm.refl _
    · have h1 : List.Perm (zrangeAll (y :: zinsert x ys))
          (y.member :: x.member :: zrangeAll ys) := by
        simpa [zrangeAll] using ih.cons y.member
      have h2 : List.Perm (y.member :: x.member :: zrangeAll ys)
          (x.member :: y.member :: zrangeAll ys) :=
        List.Perm.swap x.member y.member (zrangeAll ys)
      simpa [zrangeAll] using h1.trans h2

theorem pairwise_zinsert (x : Entry) (q : ZSet)
    (hq : q.Pairwise (fun a b => entryLt a b = true))
    (hx : ∀ e ∈ q, e.member ≠ x.member) :
    (zinsert x q).Pairwise (fun a b => entryLt a b = true) := by
  induction q with
  | nil => simp [zinsert]
  | cons y ys ih =>
    rcases List.pairwise_cons.mp hq with ⟨hy, hys⟩
    simp only [zinsert]
    split
    · rename_i hlt
      refine List.pairwise_cons.mpr ⟨?_, hq⟩
      intro e he
      rcases List.mem_cons.mp he with rfl | he'
      · exact hlt
      · exact entryLt_trans hlt (hy e he')
    · rename_i hnlt
      refine List.pairwise_cons.mpr ⟨?_, ih hys ?_⟩
      · intro e he
        rcases (mem_zinsert e x ys).mp he with rfl | he'
        · rcases entryLt_total
            (show y.member ≠ e.member from hx y (List.mem_cons_self y ys))
            with hc | hc
          · exact hc
          · exact absurd hc hnlt
        · exact hy e he'
      · intro e he
        exact hx e (List.mem_cons_of_mem y he)

theorem zrangeAll_filter (q : ZSet) (m : Member) :
    zrangeAll (q.filter (fun e => !(e.member == m))) =
      (zrangeAll q).filter (fun x => !(x == m)) := by
  induction q with
  | nil => rfl
  | cons e rest ih =>
    simp only [zrangeAll] at ih
    by_cases h : e.member = m
    · simp [zrangeAll, List.filter_cons, h, ih]
    · simp [zrangeAll, List.filter_cons, h, ih]

theorem filter_ne_of_not_mem (l : List Member) (m : Member) (h : m ∉ l) :
    l.filter (fun x => !(x == m)) = l := by
  induction l with
  | nil => rfl
  | cons a l ih =>
    simp only [List.mem_cons, not_or] at h
    have ha : (!(a == m)) = true := by
      simp
      intro hc
      exact h.1 hc.symm
    rw [List.filter_cons, if_pos ha, ih h.2]

theorem perm_filter_cons (l : List Member) (m : Member) (hn : l.Nodup)
    (hm : m ∈ l) :
    List.Perm (m :: l.filter (fun x => !(x == m))) l := by
  induction l with
  | nil => cases hm
  | cons a l ih =>
    rcases List.mem_cons.mp hm with rfl | hm'
    · have hnot : m ∉ l := (List.nodup_cons.mp hn).1
      rw [List.filter_cons, if_neg (by simp), filter_ne_of_not_mem l m hnot]
    · have hne : a ≠ m := by
        rintro rfl
        exact (List.nodup_cons.mp hn).1 hm'
      have ha : (!(a == m)) = true := by
        simp
        exact hne
      rw [List.filter_cons, if_pos ha]
      have hsw : List.Perm (m :: a :: l.filter (fun x => !(x == m)))
          (a :: m :: l.filter (fun x => !(x == m))) :=
        List.Perm.swap a m _
      exact hsw.trans (((ih (List.nodup_cons.mp hn).2 hm')).cons a)

/-! Well-formedness preservation. -/

theorem zWF_filter (q : ZSet) (p : Entry → Bool) (h : zWF q) :
    zWF (q.filter p) := by
  refine ⟨h.1.sublist (List.filter_sublist q), ?_⟩
  have hsub : List.Sublist (List.map (fun e => e.member) (q.filter p))
      (List.map (fun e => e.member) q) :=
    (List.filter_sublist q).map (fun e => e.member)
  exact h.2.sublist hsub

theorem zWF_prune (cfg : Config) (now : Int) (q : ZSet) (h : zWF q) :
    zWF (pruneStaleQueueEntries cfg now q) := by
  unfold pruneStaleQueueEntries
  match cfg.maxAgeMs with
  | none => exact h
  | some maxAge =>
    simp only
    split
    · exact h
    · exact zWF_filter q _ h

theorem member_mem_of_any {q : ZSet} {m : Member}
    (h : q.any (fun e => e.member == m) = true) : m ∈ zrangeAll q := by
  rcases List.any_eq_true.mp h with ⟨e, he, heq⟩
  rcases List.mem_map.mpr ⟨e, he, (beq_iff_eq.mp heq)⟩ with hh
  exact hh

theorem any_of_member_mem {q : ZSet} {m : Member}
    (h : m ∈ zrangeAll q) : q.any (fun e => e.member == m) = true := by
  rcases List.mem_map.mp h with ⟨e, he, heq⟩
  exact List.any_eq_true.mpr ⟨e, he, beq_iff_eq.mpr heq⟩

theorem zrem_of_mem {q : ZSet} {m : Member} (h : m ∈ zrangeAll q) :
    zrem q m = (q.filter (fun e => !(e.member == m)), 1) := by
  unfold zrem
  rw [if_pos (any_of_member_mem h)]

theorem zrem_of_not_mem {q : ZSet} {m : Member} (h : m ∉ zrangeAll q) :
    zrem q m = (q, 0) := by
  unfold zrem
  rw [if_neg ?_]
  intro hc
  exact h (member_mem_of_any hc)

theorem zWF_zaddNX (q : ZSet) (score : Int) (m : Member) (h : zWF q) :
    zWF (zaddNX q score m).1 := by
  unfold zaddNX
  split
  · exact h
  · rename_i hany
    have hnot : m ∉ zrangeAll q := by
      intro hc
      exact hany (any_of_member_mem hc)
    constructor
    · refine pairwise_zinsert _ _ h.1 ?_
      intro e he hc
      exact hnot (List.mem_map.mpr ⟨e, he, hc⟩)
    · have hperm := zrangeAll_zinsert_perm ⟨m, score⟩ q
      have : (Entry.mk m score).member :: zrangeAll q
          = m :: zrangeAll q := rfl
      refine (hperm.nodup_iff).mpr ?_
      rw [this]
      exact List.nodup_cons.mpr ⟨hnot, h.2⟩

theorem zrangeHead_nil_iff (q : ZSet) : zrangeHead q = none ↔ q = [] := by
  cases q <;> simp [zrangeHead]

theorem zrangeHead_cons (e : Entry) (rest : ZSet) :
    zrangeHead (e :: rest) = some e.member := rfl

/-! Facts about the popNext loop in the interference-free (sequential)
case, and about pruning. -/

theorem head_member_mem (e : Entry) (rest : ZSet) :
    e.member ∈ zrangeAll (e :: rest) :=
  List.mem_map.mpr ⟨e, List.mem_cons_self e rest, rfl⟩

theorem popNextLoop_succ (n : Nat) (q : ZSet) :
    popNextLoop (n + 1) q = popNextOnce q := by
  cases q with
  | nil => rfl
  | cons e rest =>
    simp [popNextLoop, popNextOnce, zrangeHead_cons,
      zrem_of_mem (head_member_mem e rest)]

theorem popNextOnce_cons (e : Entry) (rest : ZSet) (h : zWF (e :: rest)) :
    popNextOnce (e :: rest) = (rest, some e.member) := by
  have hnot : e.member ∉ zrangeAll rest := (List.nodup_cons.mp h.2).1
  simp only [popNextOnce, zrangeHead_cons,
    zrem_of_mem (head_member_mem e rest)]
  have hrest : rest.filter (fun x => !(x.member == e.member)) = rest := by
    refine List.filter_eq_self.mpr ?_
    intro x hx
    simp only [Bool.not_eq_eq_eq_not, Bool.not_true, beq_eq_false_iff_ne,
      ne_eq]
    intro hc
    exact hnot (hc ▸ List.mem_map.mpr ⟨x, hx, rfl⟩)
  simp [List.filter_cons, hrest]

theorem pairwise_head_min (e : Entry) (rest : ZSet)
    (h : (e :: rest).Pairwise (fun a b => entryLt a b = true)) :
    ∀ x ∈ e :: rest, e.score ≤ x.score := by
  intro x hx
  rcases List.mem_cons.mp hx with rfl | hx'
  · exact le_refl _
  · exact entryLt_score_le ((List.pairwise_cons.mp h).1 x hx')

theorem prune_none (now : Int) (q : ZSet) :
    pruneStaleQueueEntries ⟨none⟩ now q = q := rfl

theorem prune_removes {a now : Int} {q : ZSet} {e : Entry}
    (hscore : 0 ≤ e.score) (hold : e.score < now - a) :
    e ∉ pruneStaleQueueEntries ⟨some a⟩ now q := by
  unfold pruneStaleQueueEntries zremrangebyscore
  simp only
  rw [if_neg (by omega : ¬ now - a ≤ 0)]
  intro hmem
  have := (List.mem_filter.mp hmem).2
  simp only [Bool.not_eq_eq_eq_not, Bool.not_true, Bool.and_eq_false_iff,
    decide_eq_false_iff_not] at this
  rcases this with hc | hc
  · exact hc hscore
  · exact hc (by omega)

theorem prune_sub {cfg : Config} {now : Int} {q : ZSet} {e : Entry}
    (h : e ∈ pruneStaleQueueEntries cfg now q) : e ∈ q := by
  unfold pruneStaleQueueEntries at h
  match hm : cfg.maxAgeMs with
  | none => rw [hm] at h; exact h
  | some maxAge =>
    rw [hm] at h
    simp only at h
    split at h
    · exact h
    · exact (List.mem_filter.mp h).1

theorem prune_keeps {cfg : Config} {now : Int} {q : ZSet} {e : Entry}
    (he : e ∈ q)
    (hk : ∀ a, cfg.maxAgeMs = some a → now - a ≤ 0 ∨ ¬ e.score ≤ now - a) :
    e ∈ pruneStaleQueueEntries cfg now q := by
  unfold pruneStaleQueueEntries
  match hm : cfg.maxAgeMs with
  | none => exact he
  | some maxAge =>
    simp only
    split
    · exact he
    · rename_i hcut
      refine List.mem_filter.mpr ⟨he, ?_⟩
      rcases hk maxAge hm with hc | hc
      · exact absurd hc hcut
      · simp only [Bool.not_eq_eq_eq_not, Bool.not_true,
          Bool.and_eq_false_iff, decide_eq_false_iff_not]
        exact Or.inr hc

theorem mem_zaddNX_preserve {q : ZSet} {e : Entry} (s : Int) (m : Member)
    (h : e ∈ q) : e ∈ (zaddNX q s m).1 := by
  unfold zaddNX
  split
  · exact h
  · exact (mem_zinsert e ⟨m, s⟩ q).mpr (Or.inr h)

theorem mem_zaddNX_elim {q : ZSet} {e : Entry} {s : Int} {m : Member}
    (h : e ∈ (zaddNX q s m).1) : e ∈ q ∨ e = ⟨m, s⟩ := by
  unfold zaddNX at h
  split at h
  · exact Or.inl h
  · rcases (mem_zinsert e ⟨m, s⟩ q).mp h with rfl | h'
    · exact Or.inr rfl
    · exact Or.inl h'

theorem mem_zrem_elim {q : ZSet} {e : Entry} {m : Member}
    (h : e ∈ (zrem q m).1) : e ∈ q := by
  unfold zrem at h
  split at h
  · exact (List.mem_filter.mp h).1
  · exact h

theorem mem_popNextOnce_elim {q : ZSet} {e : Entry}
    (h : e ∈ (popNextOnce q).1) : e ∈ q := by
  unfold popNextOnce at h
  match hh : zrangeHead q with
  | none => rw [hh] at h; exact h
  | some first =>
    rw [hh] at h
    simp only at h
    split at h
    · exact mem_zrem_elim h
    · exact mem_zrem_elim h

theorem zaddNX_mem (q : ZSet) (s : Int) (m : Member) :
    m ∈ zrangeAll (zaddNX q s m).1 := by
  unfold zaddNX
  split
  · rename_i hany
    exact member_mem_of_any hany
  · have : (Entry.mk m s) ∈ zinsert ⟨m, s⟩ q :=
      (mem_zinsert _ _ _).mpr (Or.inl rfl)
    exact List.mem_map.mpr ⟨⟨m, s⟩, this, rfl⟩

theorem mem_zrem_keep {q : ZSet} {e : Entry} {m : Member} (he : e ∈ q)
    (hne : e.member ≠ m) : e ∈ (zrem q m).1 := by
  unfold zrem
  split
  · refine List.mem_filter.mpr ⟨he, ?_⟩
    simp only [Bool.not_eq_eq_eq_not, Bool.not_true, beq_eq_false_iff_ne,
      ne_eq]
    exact hne
  · exact he

/-! Claim theorems. -/

/-- C2: the code assigns raw Date.now millisecond values as admission
scores, so two joins admitted within the same clock tick share a rank, and
the queue lists them in lexicographic member order rather than admission
order: joining bob and then alice at tick 1000 yields two entries that both
carry score 1000, listed as alice before bob. -/
theorem joinQueue_same_tick_shared_rank :
    (joinQueue ⟨none⟩ 1000 [] "bob").1 = [⟨"bob", 1000⟩] ∧
    (joinQueue ⟨none⟩ 1000 [⟨"bob", 1000⟩] "alice").1 =
      [⟨"alice", 1000⟩, ⟨"bob", 1000⟩] ∧
    (listQueue ⟨none⟩ 1000 [⟨"alice", 1000⟩, ⟨"bob", 1000⟩]).2 =
      ["alice", "bob"] := by
  refine ⟨by decide, by decide, by decide⟩

/-- C3: after the prune pass, popNext removes and returns the entry with
the minimum admission rank (the head of the sorted set), and it returns
empty exactly when the pruned queue is empty; joining A, B, C in that order
(at strictly increasing ticks) and then popping four times returns A, then
B, then C, then empty. -/
theorem popNext_fifo :
    (∀ (cfg : Config) (now : Int) (q : ZSet) (e : Entry) (rest : ZSet),
      zWF (pruneStaleQueueEntries cfg now q) →
      pruneStaleQueueEntries cfg now q = e :: rest →
      popNext cfg now q = (rest, some e.member) ∧
        ∀ x ∈ pruneStaleQueueEntries cfg now q, e.score ≤ x.score) ∧
    (∀ (cfg : Config) (now : Int) (q : ZSet),
      (popNext cfg now q).2 = none ↔ pruneStaleQueueEntries cfg now q = []) ∧
    ((popNext ⟨none⟩ 4 (joinQueue ⟨none⟩ 3 (joinQueue ⟨none⟩ 2
        (joinQueue ⟨none⟩ 1 [] "A").1 "B").1 "C").1).2 = some "A" ∧
      (popNext ⟨none⟩ 5 [⟨"B", 2⟩, ⟨"C", 3⟩]).2 = some "B" ∧
      (popNext ⟨none⟩ 6 [⟨"C", 3⟩]).2 = some "C" ∧
      (popNext ⟨none⟩ 7 ([] : ZSet)).2 = none ∧
      (popNext ⟨none⟩ 4 (joinQueue ⟨none⟩ 3 (joinQueue ⟨none⟩ 2
        (joinQueue ⟨none⟩ 1 [] "A").1 "B").1 "C").1).1 =
        [⟨"B", 2⟩, ⟨"C", 3⟩]) := by
  refine ⟨?_, ?_, by decide, by decide, by decide, by decide, by decide⟩
  · intro cfg now q e rest hwf heq
    constructor
    · show popNextLoop ((pruneStaleQueueEntries cfg now q).length + 1)
        (pruneStaleQueueEntries cfg now q) = (rest, some e.member)
      rw [popNextLoop_succ, heq]
      rw [heq] at hwf
      exact popNextOnce_cons e rest hwf
    · intro x hx
      rw [heq] at hwf hx
      exact pairwise_head_min e rest hwf.1 x hx
  · intro cfg now q
    show (popNextLoop ((pruneStaleQueueEntries cfg now q).length + 1)
      (pruneStaleQueueEntries cfg now q)).2 = none ↔ _
    rw [popNextLoop_succ]
    cases hp : pruneStaleQueueEntries cfg now q with
    | nil => simp [popNextOnce, zrangeHead]
    | cons e rest =>
      simp only [popNextOnce, zrangeHead_cons,
        zrem_of_mem (head_member_mem e rest)]
      simp

/-- C6: joining is idempotent: joining the same member twice leaves exactly
one occurrence of it in the listing, the second call reports that nothing
was admitted, and well-formedness (no duplicate entries) is preserved; the
hypothesis states that the member's entry is not pruned away between the
two joins. -/
theorem joinQueue_idempotent (cfg : Config) (now1 now2 : Int) (q : ZSet)
    (m : Member) (hwf : zWF q)
    (hkeep : ∀ e ∈ (joinQueue cfg now1 q m).1, e.member = m →
      ∀ a, cfg.maxAgeMs = some a → now2 - a ≤ 0 ∨ ¬ e.score ≤ now2 - a) :
    (joinQueue cfg now2 (joinQueue cfg now1 q m).1 m).2 = false ∧
    List.count m
      (zrangeAll (joinQueue cfg now2 (joinQueue cfg now1 q m).1 m).1) = 1 ∧
    zWF (joinQueue cfg now2 (joinQueue cfg now1 q m).1 m).1 := by
  have hwf1 : zWF (joinQueue cfg now1 q m).1 :=
    zWF_zaddNX _ _ _ (zWF_prune cfg now1 q hwf)
  have hm1 : m ∈ zrangeAll (joinQueue cfg now1 q m).1 :=
    zaddNX_mem _ _ _
  rcases List.mem_map.mp hm1 with ⟨e, he, hem⟩
  have hm2 : m ∈ zrangeAll
      (pruneStaleQueueEntries cfg now2 (joinQueue cfg now1 q m).1) := by
    refine List.mem_map.mpr ⟨e, ?_, hem⟩
    exact prune_keeps he (hkeep e he hem)
  have hwf2 : zWF
      (pruneStaleQueueEntries cfg now2 (joinQueue cfg now1 q m).1) :=
    zWF_prune cfg now2 _ hwf1
  have hadd : zaddNX
      (pruneStaleQueueEntries cfg now2 (joinQueue cfg now1 q m).1) now2 m =
      (pruneStaleQueueEntries cfg now2 (joinQueue cfg now1 q m).1, 0) := by
    unfold zaddNX
    rw [if_pos (any_of_member_mem hm2)]
  refine ⟨?_, ?_, ?_⟩
  · show ((zaddNX _ now2 m).2 == 1) = false
    rw [hadd]
    rfl
  · show List.count m (zrangeAll (zaddNX _ now2 m).1) = 1
    rw [hadd]
    exact List.count_eq_one_of_mem hwf2.2 hm2
  · show zWF (zaddNX _ now2 m).1
    rw [hadd]
    exact hwf2

/-- Witness for C6 at a concrete input: joining member a twice at ticks 1
and 2 with pruning disabled. -/
theorem joinQueue_idempotent_witness :
    zWF ([] : ZSet) ∧
    (joinQueue ⟨none⟩ 2 (joinQueue ⟨none⟩ 1 [] "a").1 "a").2 = false ∧
    List.count "a"
      (zrangeAll (joinQueue ⟨none⟩ 2 (joinQueue ⟨none⟩ 1 [] "a").1 "a").1) =
      1 := by
  have h := joinQueue_idempotent ⟨none⟩ 1 2 [] "a" (by decide)
    (fun e _ _ a ha => Option.noConfusion ha)
  exact ⟨by decide, h.1, h.2.1⟩

/-- C7: the head-change wrapper notifies exactly when the post-mutation
head exists, differs from the pre-mutation head, and the
suppress-when-previously-empty option does not apply; with at most one
dispatch per invocation (the result carries the single notified member).
Concretely, leaving A on queue [A, B] notifies B, and leaving A on queue
[A] notifies nobody. -/
theorem withFirstChangeNotify_spec :
    (∀ (cfg : Config) (now1 now2 : Int) (s : Bool) (op : ZSet → ZSet)
      (q : ZSet) (a : Member),
      (withFirstChangeNotify cfg now1 now2 s op q).2 = some a ↔
        ((firstUser cfg now2 (op (firstUser cfg now1 q).1)).2 = some a ∧
          (firstUser cfg now1 q).2 ≠ some a ∧
          ¬ (s = true ∧ (firstUser cfg now1 q).2 = none))) ∧
    (withFirstChangeNotify ⟨none⟩ 0 0 false
      (fun qq => (leaveQueue ⟨none⟩ 0 qq "A").1) [⟨"A", 1⟩, ⟨"B", 2⟩]).2 =
      some "B" ∧
    (withFirstChangeNotify ⟨none⟩ 0 0 false
      (fun qq => (leaveQueue ⟨none⟩ 0 qq "A").1) [⟨"A", 1⟩]).2 = none := by
  refine ⟨?_, by decide, by decide⟩
  intro cfg now1 now2 s op q a
  simp only [withFirstChangeNotify]
  cases hafter : (firstUser cfg now2 (op (firstUser cfg now1 q).1)).2 with
  | none => simp [hafter]
  | some b =>
    simp only [hafter]
    by_cases hbe : (firstUser cfg now1 q).2 = some b
    · rw [if_pos hbe]
      simp only [hbe]
      constructor
      · intro hc
        exact absurd hc (by simp)
      · rintro ⟨h1, h2, _⟩
        exact absurd h1 h2
    · rw [if_neg hbe]
      by_cases hs : s = true ∧ (firstUser cfg now1 q).2 = none
      · rw [if_pos hs]
        constructor
        · intro hc
          exact absurd hc (by simp)
        · rintro ⟨_, _, h3⟩
          exact absurd hs h3
      · rw [if_neg hs]
        constructor
        · intro hc
          have hba : b = a := by
            simpa using hc
          subst hba
          exact ⟨rfl, hbe, hs⟩
        · rintro ⟨h1, _, _⟩
          simpa using h1

/-- C8: with pruning enabled (a positive max age), every entry strictly
older than now minus the max age is absent from the queue after each of the
four operations (join, leave, list, popNext), all of which prune first;
with pruning disabled (max age null), the prune pass is the identity and
arbitrarily old entries persist across list, join and leave of another
member; and a non-positive configured QUEUE_MAX_AGE_HOURS computes to the
disabled (null) max age. -/
theorem pruning_spec :
    (∀ (a now : Int) (q : ZSet) (u : Member) (e : Entry),
      0 < a → 0 ≤ e.score → e.score < now - a →
      e ∉ (joinQueue ⟨some a⟩ now q u).1 ∧
      e ∉ (leaveQueue ⟨some a⟩ now q u).1 ∧
      e ∉ (listQueue ⟨some a⟩ now q).1 ∧
      e ∉ (popNext ⟨some a⟩ now q).1) ∧
    (∀ (now : Int) (q : ZSet), pruneStaleQueueEntries ⟨none⟩ now q = q) ∧
    (∀ (now : Int) (q : ZSet) (e : Entry) (u : Member), e ∈ q →
      e ∈ (listQueue ⟨none⟩ now q).1 ∧
      e ∈ (joinQueue ⟨none⟩ now q u).1 ∧
      (e.member ≠ u → e ∈ (leaveQueue ⟨none⟩ now q u).1)) ∧
    (∀ p : Int, p ≤ 0 → computeQueueMaxAgeMs (some p) = none) := by
  refine ⟨?_, fun now q => rfl, ?_, ?_⟩
  · intro a now q u e ha hs hold
    have hpr : e ∉ pruneStaleQueueEntries ⟨some a⟩ now q :=
      prune_removes hs hold
    refine ⟨?_, ?_, ?_, ?_⟩
    · intro hc
      rcases mem_zaddNX_elim hc with h | h
      · exact hpr h
      · subst h
        simp only at hold
        omega
    · intro hc
      exact hpr (mem_zrem_elim hc)
    · intro hc
      exact hpr hc
    · intro hc
      have hc1 : e ∈ (popNextOnce
          (pruneStaleQueueEntries ⟨some a⟩ now q)).1 := by
        rw [← popNextLoop_succ
          ((pruneStaleQueueEntries ⟨some a⟩ now q).length)]
        exact hc
      exact hpr (mem_popNextOnce_elim hc1)
  · intro now q e u he
    exact ⟨he, mem_zaddNX_preserve now u he,
      fun hne => mem_zrem_keep he hne⟩
  · intro p hp
    simp only [computeQueueMaxAgeMs]
    rw [if_neg (by omega)]

/-- Witness for C8 at a concrete input: an entry of score 0 is gone from
the queue after a join at tick 10 with a 1 ms max age. -/
theorem pruning_spec_witness :
    (0 : Int) < 1 ∧ (0 : Int) ≤ 0 ∧ (0 : Int) < 10 - 1 ∧
    (⟨"old", 0⟩ : Entry) ∉ (joinQueue ⟨some 1⟩ 10 [⟨"old", 0⟩] "x").1 :=
  ⟨by decide, by decide, by decide,
    (pruning_spec.1 1 10 [⟨"old", 0⟩] "x" ⟨"old", 0⟩ (by decide) (by decide)
      (by decide)).1⟩

/-- C5 counterexample: the explicit delete action on the view (the
queue_more overflow handler) does not empty the channel's queue membership:
with member A queued, the handler succeeds, yet the membership set still
holds A. -/
theorem queueMoreDelete_keeps_membership :
    (queueMoreDelete ⟨[⟨"A", 1⟩], some "111"⟩ (some "delete") (some "C")
      (some "T") (some "111") ChatDeleteRes.ok).1.q = [⟨"A", 1⟩] ∧
    zrangeAll [(⟨"A", 1⟩ : Entry)] ≠ [] := by
  refine ⟨by decide, by decide⟩

/-- C5 amended: the explicit delete action deletes the view message and, on
success, forgets the recorded view handle (the ViewRecord), while the
queue membership set is left untouched on every path (the engine has no
clear operation on membership). -/
theorem queueMoreDelete_spec :
    (∀ (st : MoreState) (selected channelId teamId ts : Option String)
      (del : ChatDeleteRes),
      (queueMoreDelete st selected channelId teamId ts del).1.q = st.q) ∧
    (queueMoreDelete ⟨[⟨"A", 1⟩], some "111"⟩ (some "delete") (some "C")
      (some "T") (some "111") ChatDeleteRes.ok).1.record = none ∧
    (queueMoreDelete ⟨[⟨"A", 1⟩], some "111"⟩ (some "delete") (some "C")
      (some "T") (some "111") ChatDeleteRes.ok).2 =
      some "Queue message deleted." := by
  refine ⟨?_, by decide, by decide⟩
  intro st selected channelId teamId ts del
  unfold queueMoreDelete
  split
  · rfl
  · split
    · split <;> rfl
    · rfl

theorem viewDoPost_deletedOld (q1 : ZSet) (client : ChatClient) (d : Bool) :
    (viewDoPost q1 client d).deletedOld = d := by
  unfold viewDoPost
  split <;> rfl

theorem viewTryCached_deletedOld (q1 : ZSet) (client : ChatClient)
    (d f : Bool) (c t : Option String) :
    (viewTryCached q1 client d f c t).deletedOld = d := by
  unfold viewTryCached
  split
  · exact viewDoPost_deletedOld _ _ _
  · split
    · exact viewDoPost_deletedOld _ _ _
    · split
      · split <;> first | rfl | exact viewDoPost_deletedOld _ _ _
      · exact viewDoPost_deletedOld _ _ _

theorem viewTryClicked_deletedOld (q1 : ZSet) (client : ChatClient)
    (d f : Bool) (c t : Option String) :
    (viewTryClicked q1 client d f c t).deletedOld = d := by
  unfold viewTryClicked
  split
  · exact viewTryCached_deletedOld _ _ _ _ _ _
  · split
    · split <;> first | rfl | exact viewTryCached_deletedOld _ _ _ _ _ _
    · exact viewTryCached_deletedOld _ _ _ _ _ _

/-- A concrete chat client on which the tracked view is buried: the history
after it holds one visible message, deletion succeeds, and a fresh post
returns handle 200. -/
def repostClient : ChatClient :=
  ⟨fun _ _ => HistoryRes.ok [⟨"message", none⟩],
    fun _ => DeleteRes.ok, fun _ => UpdateRes.ok, some "200"⟩

/-- C9: when the recorded view handle has more than the threshold T of
visible messages after it, a refresh deletes the old view (treating
message_not_found as deleted), posts a fresh message, and records the fresh
handle as the channel's view record; and a negative configured threshold
computes to the disabled (null) threshold, under which no refresh ever
performs the delete-and-repost. -/
theorem postOrUpdateQueueView_repost :
    (∀ (cfg : Config) (client : ChatClient) (now : Int) (q : ZSet)
      (h nts : String) (T : Int),
      0 ≤ T →
      queueMessageNeedsRepost client h T = true →
      (client.deleteMsg h = DeleteRes.ok ∨
        client.deleteMsg h = DeleteRes.errCode "message_not_found") →
      client.postTs = some nts →
      (postOrUpdateQueueView cfg (some T) client now q (some h)
          none).deletedOld = true ∧
        (postOrUpdateQueueView cfg (some T) client now q (some h)
          none).postedNew = true ∧
        (postOrUpdateQueueView cfg (some T) client now q (some h)
          none).record = some nts ∧
        (postOrUpdateQueueView cfg (some T) client now q (some h)
          none).ts = some nts) ∧
    (∀ p : Int, p < 0 → computeQueueRepostThreshold (some p) = none) ∧
    (∀ (cfg : Config) (client : ChatClient) (now : Int) (q : ZSet)
      (record ts0 : Option String),
      (postOrUpdateQueueView cfg none client now q record ts0).deletedOld
        = false) := by
  refine ⟨?_, ?_, ?_⟩
  · intro cfg client now q h nts T hT hrep hdel hpost
    have h1 : viewNeedsRepost client (some T) (some h) = true := by
      simp only [viewNeedsRepost]
      rw [hrep, decide_eq_true hT]
      rfl
    have h2 : viewDeleted client true (some h) = true := by
      simp only [viewDeleted, if_true]
      rcases hdel with hd | hd <;> rw [hd]
      rfl
    have he : viewEffectiveTs none (some h) = some h := rfl
    simp only [postOrUpdateQueueView, he, h1, h2, viewTryClicked, if_true,
      viewTryCached, viewDoPost, hpost]
    refine ⟨?_, ?_, ?_, ?_⟩ <;> trivial
  · intro p hp
    simp only [computeQueueRepostThreshold]
    rw [if_pos hp]
  · intro cfg client now q record ts0
    have hstep : (postOrUpdateQueueView cfg none client now q record
        ts0).deletedOld =
        viewDeleted client
          (viewNeedsRepost client none (viewEffectiveTs ts0 record))
          (viewEffectiveTs ts0 record) :=
      viewTryClicked_deletedOld _ _ _ _ _ _
    rw [hstep]
    have hnr : viewNeedsRepost client none (viewEffectiveTs ts0 record)
        = false := by
      cases viewEffectiveTs ts0 record <;> rfl
    rw [hnr]
    simp [viewDeleted]

/-- Witness for C9 at a concrete input: with threshold 0, one visible
intervening message buries the tracked handle 100; the refresh deletes it
and records the freshly posted handle 200. -/
theorem postOrUpdateQueueView_repost_witness :
    (0 : Int) ≤ 0 ∧
    queueMessageNeedsRepost repostClient "100" 0 = true ∧
    (repostClient.deleteMsg "100" = DeleteRes.ok ∨
      repostClient.deleteMsg "100" = DeleteRes.errCode "message_not_found") ∧
    repostClient.postTs = some "200" ∧
    (postOrUpdateQueueView ⟨none⟩ (some 0) repostClient 0 [] (some "100")
        none).deletedOld = true ∧
    (postOrUpdateQueueView ⟨none⟩ (some 0) repostClient 0 [] (some "100")
        none).record = some "200" := by
  have h := postOrUpdateQueueView_repost.1 ⟨none⟩ repostClient 0 [] "100"
    "200" 0 (by decide) (by decide) (Or.inl rfl) rfl
  exact ⟨by decide, by decide, Or.inl rfl, rfl, h.1, h.2.2.1⟩

/-- A concrete chat client whose edit target is stale: every update fails
with message_not_found, and a fresh post returns handle 300. -/
def staleClient : ChatClient :=
  ⟨fun _ _ => HistoryRes.err,
    fun _ => DeleteRes.ok,
    fun _ => UpdateRes.errCode "message_not_found", some "300"⟩

/-- C10: when editing the passed view handle fails because the handle is
stale (message_not_found or cant_update_message), the refresh swallows the
failure, falls back to posting a fresh document, returns the fresh handle,
and records it as the channel's new view record (stated with reposting
disabled and the cached record absent or equal to the stale handle). -/
theorem postOrUpdateQueueView_staleEdit :
    ∀ (cfg : Config) (client : ChatClient) (now : Int) (q : ZSet)
      (h nts : String) (record : Option String),
      (client.updateMsg h = UpdateRes.errCode "message_not_found" ∨
        client.updateMsg h = UpdateRes.errCode "cant_update_message") →
      (record = none ∨ record = some h) →
      client.postTs = some nts →
      (postOrUpdateQueueView cfg none client now q record
          (some h)).postedNew = true ∧
      (postOrUpdateQueueView cfg none client now q record
          (some h)).record = some nts ∧
      (postOrUpdateQueueView cfg none client now q record
          (some h)).ts = some nts ∧
      (postOrUpdateQueueView cfg none client now q record
          (some h)).deletedOld = false := by
  intro cfg client now q h nts record hupd hrec hpost
  have hu : ∃ c, client.updateMsg h = UpdateRes.errCode c := by
    rcases hupd with hd | hd
    · exact ⟨_, hd⟩
    · exact ⟨_, hd⟩
  rcases hu with ⟨c, hc⟩
  rcases hrec with rfl | rfl
  · simp only [postOrUpdateQueueView, viewEffectiveTs, viewNeedsRepost,
      viewDeleted, viewTryClicked, viewTryCached, viewDoPost, hc, hpost,
      Bool.false_eq_true, if_false]
    refine ⟨?_, ?_, ?_, ?_⟩ <;> trivial
  · simp only [postOrUpdateQueueView, viewEffectiveTs, viewNeedsRepost,
      viewDeleted, viewTryClicked, viewTryCached, viewDoPost, hc, hpost,
      Bool.false_eq_true, if_false]
    rw [if_neg (by simp)]
    refine ⟨?_, ?_, ?_, ?_⟩ <;> trivial

/-- Witness for C10 at a concrete input: updating stale handle 100 fails
with message_not_found and the refresh records the fresh handle 300. -/
theorem postOrUpdateQueueView_staleEdit_witness :
    (staleClient.updateMsg "100" = UpdateRes.errCode "message_not_found" ∨
      staleClient.updateMsg "100" = UpdateRes.errCode "cant_update_message") ∧
    staleClient.postTs = some "300" ∧
    (postOrUpdateQueueView ⟨none⟩ none staleClient 0 [] (some "100")
        (some "100")).record = some "300" ∧
    (postOrUpdateQueueView ⟨none⟩ none staleClient 0 [] (some "100")
        (some "100")).postedNew = true := by
  have h := postOrUpdateQueueView_staleEdit ⟨none⟩ staleClient 0 [] "100"
    "300" (some "100") (Or.inl rfl) (Or.inr rfl) rfl
  exact ⟨Or.inl rfl, rfl, h.2.1, h.1⟩

theorem popNextRace_altSched (n : Nat) : ∀ a b : Member, a ≠ b →
    popNextRace n (altSched a b n) [⟨a, 0⟩] = none := by
  induction n with
  | zero => intro a b hab; rfl
  | succ n ih =>
    intro a b hab
    have h1 : applyOps [⟨a, 0⟩] [QOp.leave a, QOp.join b 0] = [⟨b, 0⟩] := by
      simp only [applyOps, List.foldl, applyOp]
      rw [zrem_of_mem (head_member_mem ⟨a, 0⟩ [])]
      simp [zaddNX, zinsert, zrangeAll]
    have h2 : zrem [⟨b, 0⟩] a = ([⟨b, 0⟩], 0) := by
      refine zrem_of_not_mem ?_
      simp [zrangeAll]
      exact fun hc => hab hc
    show popNextRace (n + 1)
      ([QOp.leave a, QOp.join b 0] :: altSched b a n) [⟨a, 0⟩] = none
    simp only [popNextRace, zrangeHead_cons, h1, h2, List.drop_one,
      List.tail_cons]
    exact ih b a (Ne.symm hab)

/-- C4 counterexample: the popNext retry loop has no retry cap: there is no
bound within which it is guaranteed to return under interference from
concurrent leave and join operations (the alternating adversary keeps it
retrying past any candidate cap). -/
theorem popNext_retry_cap_false :
    ¬ ∃ cap : Nat, ∀ (sched : List (List QOp)) (q : ZSet),
      (popNextRace cap sched q).isSome = true := by
  rintro ⟨cap, hcap⟩
  have h := hcap (altSched "A" "B" cap) [⟨"A", 0⟩]
  rw [popNextRace_altSched cap "A" "B" (by decide)] at h
  simp at h

/-- C4 amended: the source loop is an unguarded while-true: for every
iteration bound there is an interference schedule of concurrent leave/join
operations under which the loop is still retrying after that many
iterations (and its only outcomes are a member or empty, never a
StoreUnavailable condition); without interference it decides on its first
iteration. -/
theorem popNext_retry_unbounded :
    (∀ n : Nat, ∃ (sched : List (List QOp)) (q : ZSet),
      popNextRace n sched q = none) ∧
    (∀ q : ZSet, (popNextRace 1 [] q).isSome = true) := by
  constructor
  · intro n
    exact ⟨altSched "A" "B" n, [⟨"A", 0⟩],
      popNextRace_altSched n "A" "B" (by decide)⟩
  · intro q
    cases q with
    | nil => rfl
    | cons e rest =>
      simp only [popNextRace, zrangeHead_cons, applyOps, List.foldl]
      rw [zrem_of_mem (head_member_mem e rest)]
      rfl

/-- The members already returned by a racing popNext task (empty unless it
finished holding a member). -/
def resList : TStat → List Member
  | .done (some m) => [m]
  | _ => []

/-- Records that a finished task did not return null (it never observes an
empty queue while members remain unaccounted for). -/
def notDoneNone : TStat → Prop
  | .done none => False
  | _ => True

/-- Invariant of the two-pop race on a queue that initially holds exactly
the members A and B: the members still queued together with the members
already returned always form exactly that pair, and no task has finished
empty-handed. -/
def raceInv (A B : Member) (s : RaceState) : Prop :=
  List.Perm (zrangeAll s.q ++ (resList s.t1 ++ resList s.t2)) [A, B] ∧
  notDoneNone s.t1 ∧ notDoneNone s.t2

theorem resList_length (t : TStat) : (resList t).length ≤ 1 := by
  cases t with
  | reading => simp [resList]
  | removing m => simp [resList]
  | done r => cases r <;> simp [resList]

theorem stepThread_pres {A B : Member} (hAB : A ≠ B) (q : ZSet) (t : TStat)
    (rest : List Member)
    (hperm : List.Perm (zrangeAll q ++ (resList t ++ rest)) [A, B])
    (hrl : rest.length ≤ 1) (ht : notDoneNone t) :
    List.Perm (zrangeAll (stepThread q t).1 ++
      (resList (stepThread q t).2 ++ rest)) [A, B] ∧
    notDoneNone (stepThread q t).2 := by
  cases t with
  | done r => exact ⟨hperm, ht⟩
  | reading =>
    match hh : zrangeHead q with
    | none =>
      exfalso
      have hq : q = [] := (zrangeHead_nil_iff q).mp hh
      subst hq
      have hlen := hperm.length_eq
      simp [zrangeAll, resList] at hlen
      omega
    | some m =>
      have hst : stepThread q TStat.reading = (q, TStat.removing m) := by
        simp [stepThread, hh]
      rw [hst]
      exact ⟨by simpa [resList] using hperm, trivial⟩
  | removing m =>
    by_cases hm : m ∈ zrangeAll q
    · have hst : stepThread q (TStat.removing m) =
          (q.filter (fun e => !(e.member == m)), TStat.done (some m)) := by
        simp [stepThread, zrem_of_mem hm]
      rw [hst]
      have hnodup : (zrangeAll q).Nodup := by
        have hn : (zrangeAll q ++ (resList (TStat.removing m) ++
            rest)).Nodup :=
          hperm.nodup_iff.mpr (by simp [hAB])
        exact (List.nodup_append.mp hn).1
      constructor
      · have hp1 : List.Perm
            ((zrangeAll q).filter (fun x => !(x == m)) ++ [m])
            (zrangeAll q) := by
          refine (List.perm_append_singleton m _).trans ?_
          exact perm_filter_cons (zrangeAll q) m hnodup hm
        have hp2 : List.Perm
            (zrangeAll (q.filter (fun e => !(e.member == m))) ++
              (resList (TStat.done (some m)) ++ rest))
            (zrangeAll q ++ rest) := by
          show List.Perm
            (zrangeAll (q.filter (fun e => !(e.member == m))) ++
              ([m] ++ rest)) (zrangeAll q ++ rest)
          rw [zrangeAll_filter, ← List.append_assoc]
          exact hp1.append_right rest
        exact hp2.trans (by simpa [resList] using hperm)
      · trivial
    · have hst : stepThread q (TStat.removing m) = (q, TStat.reading) := by
        simp [stepThread, zrem_of_not_mem hm]
      rw [hst]
      exact ⟨by simpa [resList] using hperm, trivial⟩

theorem stepSys_pres {A B : Member} (hAB : A ≠ B) (s : RaceState) (c : Bool)
    (h : raceInv A B s) : raceInv A B (stepSys s c) := by
  rcases h with ⟨hperm, h1, h2⟩
  cases c with
  | true =>
    have hs := stepThread_pres hAB s.q s.t1 (resList s.t2) hperm
      (resList_length s.t2) h1
    exact ⟨hs.1, hs.2, h2⟩
  | false =>
    have hcomm : List.Perm
        (zrangeAll s.q ++ (resList s.t2 ++ resList s.t1)) [A, B] := by
      refine List.Perm.trans ?_ hperm
      exact List.Perm.append_left (zrangeAll s.q) List.perm_append_comm
    have hs := stepThread_pres hAB s.q s.t2 (resList s.t1) hcomm
      (resList_length s.t1) h2
    refine ⟨?_, h1, hs.2⟩
    refine List.Perm.trans ?_ hs.1
    exact List.Perm.append_left _ List.perm_append_comm

theorem runSched_pres {A B : Member} (hAB : A ≠ B) :
    ∀ (sched : List Bool) (s : RaceState), raceInv A B s →
      raceInv A B (runSched s sched) := by
  intro sched
  induction sched with
  | nil => exact fun s h => h
  | cons c cs ih => exact fun s h => ih _ (stepSys_pres hAB s c h)

/-- C1: under every interleaving of two concurrent popNext tasks racing on
a queue holding exactly the two distinct members A and B, if both tasks
finish then each of the two members is returned by exactly one task (never
the same member twice) and the queue ends empty (no member is removed
without being returned). -/
theorem popNext_race_exactly_once (A B : Member) (sA sB : Int)
    (sched : List Bool) (r1 r2 : Option Member) (hAB : A ≠ B)
    (h1 : (runSched ⟨[⟨A, sA⟩, ⟨B, sB⟩], TStat.reading, TStat.reading⟩
      sched).t1 = TStat.done r1)
    (h2 : (runSched ⟨[⟨A, sA⟩, ⟨B, sB⟩], TStat.reading, TStat.reading⟩
      sched).t2 = TStat.done r2) :
    ((r1 = some A ∧ r2 = some B) ∨ (r1 = some B ∧ r2 = some A)) ∧
    (runSched ⟨[⟨A, sA⟩, ⟨B, sB⟩], TStat.reading, TStat.reading⟩ sched).q
      = [] := by
  have hinit : raceInv A B
      ⟨[⟨A, sA⟩, ⟨B, sB⟩], TStat.reading, TStat.reading⟩ := by
    refine ⟨?_, trivial, trivial⟩
    simp [zrangeAll, resList]
  have hinv := runSched_pres hAB sched _ hinit
  rcases hinv with ⟨hperm, hn1, hn2⟩
  rw [h1] at hperm hn1
  rw [h2] at hperm hn2
  cases r1 with
  | none => exact absurd hn1 (by simp [notDoneNone])
  | some a1 =>
    cases r2 with
    | none => exact absurd hn2 (by simp [notDoneNone])
    | some a2 =>
      have hq : (runSched ⟨[⟨A, sA⟩, ⟨B, sB⟩], TStat.reading,
          TStat.reading⟩ sched).q = [] := by
        have hlen := hperm.length_eq
        simp only [List.length_append, resList, List.length_cons,
          List.length_nil, List.length_singleton] at hlen
        have hz : (zrangeAll ((runSched ⟨[⟨A, sA⟩, ⟨B, sB⟩], TStat.reading,
            TStat.reading⟩ sched).q)).length = 0 := by omega
        have hmap := List.length_eq_zero.mp hz
        exact List.map_eq_nil_iff.mp hmap
      have hpair : List.Perm [a1, a2] [A, B] := by
        have := hperm
        rw [hq] at this
        simpa [zrangeAll, resList] using this
      refine ⟨?_, hq⟩
      have hmem : a1 ∈ ([A, B] : List Member) :=
        hpair.mem_iff.mp (by simp)
      rcases List.mem_cons.mp hmem with rfl | hmem'
      · left
        have hsing : List.Perm [a2] [B] := hpair.cons_inv
        have : a2 = B := by
          have := List.perm_singleton.mp hsing
          simpa using this
        exact ⟨rfl, by rw [this]⟩
      · have ha1 : a1 = B := by simpa using hmem'
        right
        have hswap : List.Perm ([A, B] : List Member) [B, A] :=
          List.Perm.swap B A []
        have hpair2 : List.Perm [a1, a2] [B, A] := hpair.trans hswap
        rw [ha1] at hpair2
        have hsing : List.Perm [a2] [A] := hpair2.cons_inv
        have ha2 : a2 = A := by
          have := List.perm_singleton.mp hsing
          simpa using this
        exact ⟨by rw [ha1], by rw [ha2]⟩

/-- Witness for C1 at a concrete input: task one pops a, then task two pops
b, under the schedule stepping task one twice and then task two twice. -/
theorem popNext_race_exactly_once_witness :
    ("a" : Member) ≠ "b" ∧
    (runSched ⟨[⟨"a", 1⟩, ⟨"b", 2⟩], TStat.reading, TStat.reading⟩
      [true, true, false, false]).t1 = TStat.done (some "a") ∧
    (runSched ⟨[⟨"a", 1⟩, ⟨"b", 2⟩], TStat.reading, TStat.reading⟩
      [true, true, false, false]).t2 = TStat.done (some "b") ∧
    ((some "a" = some "a" ∧ some "b" = some "b") ∨
      (some "a" = some "b" ∧ some "b" = some "a")) ∧
    (runSched ⟨[⟨"a", 1⟩, ⟨"b", 2⟩], TStat.reading, TStat.reading⟩
      [true, true, false, false]).q = [] :=
  ⟨by decide, by decide, by decide,
    popNext_race_exactly_once "a" "b" 1 2 [true, true, false, false]
      (some "a") (some "b") (by decide) (by decide) (by decide)⟩

/-- Witness for C3 at a concrete input: a well-formed two-entry pruned
queue pops its head. -/
theorem popNext_fifo_witness :
    zWF (pruneStaleQueueEntries ⟨none⟩ 0 [⟨"a", 1⟩, ⟨"b", 2⟩]) ∧
    pruneStaleQueueEntries ⟨none⟩ 0 [⟨"a", 1⟩, ⟨"b", 2⟩] =
      ⟨"a", 1⟩ :: [⟨"b", 2⟩] ∧
    popNext ⟨none⟩ 0 [⟨"a", 1⟩, ⟨"b", 2⟩] = ([⟨"b", 2⟩], some "a") :=
  ⟨by decide, by decide,
    (popNext_fifo.1 ⟨none⟩ 0 [⟨"a", 1⟩, ⟨"b", 2⟩] ⟨"a", 1⟩ [⟨"b", 2⟩]
      (by decide) (by decide)).1⟩
